import Mathlib

/-!
Verification of the wslog structured-logging formatting core.

The definitions below are shallow embeddings of the Go sources of the
zc2638/wslog repository: the level registry (`RegisterLevel`, `ParseLevel`,
`SLevelLevel`), the quoting predicate (`needsQuoting`), the attribute
flattener (`addAttrs`, from `logHandler.addAttrs`), the ANSI colorization
pass (`convertToColorKey`), the text handler (`handle`, `withAttrsH`,
`withGroupH`) and the multi-destination fan-out (`multiHandle`).

Byte strings are modelled as `List Char`; Go works on UTF-8 bytes, but
every delimiter the code scans for (`=`, `"`, space, backslash, `+`, `.`)
is an ASCII byte that can never occur inside a multi-byte UTF-8 encoding,
so the character-level model is behaviorally identical to the byte-level
original.  Lazy (`LogValuer`) values are not modelled: `Value.Resolve`
is the identity on every other kind, so it disappears from the embedding.
-/

/-- Abbreviation turning a string literal into the character list used by
the byte-stream model. -/
def toL (s : String) : List Char := s.toList

/-- Index of the first occurrence of a character in a list, mirroring Go's
`bytes.IndexByte` (`-1` becomes `none`). -/
def idxOf (c : Char) : List Char → Option Nat
  | [] => none
  | a :: rest => if a = c then some 0 else (idxOf c rest).map (· + 1)

/-- Index of the first occurrence of the two-byte pattern `[c1, c2]`,
mirroring Go's `bytes.Index` with a two-byte needle. -/
def findSub2 (c1 c2 : Char) : List Char → Option Nat
  | [] => none
  | [_] => none
  | a :: b :: rest =>
    if a = c1 ∧ b = c2 then some 0
    else (findSub2 c1 c2 (b :: rest)).map (· + 1)

/-- `strings.Join(groups, ".")` as used by `logHandler.addAttrs`. -/
def joinDot : List (List Char) → List Char
  | [] => []
  | [g] => g
  | g :: rest => g ++ '.' :: joinDot rest

/-- Go `unicode.IsSpace` restricted to the ASCII white-space characters
(the only ones exercised by the level syntax). -/
def isSpaceGo (c : Char) : Bool :=
  c = ' ' ∨ c = '\t' ∨ c = '\n' ∨ c = '\r' ∨ c = '\x0b' ∨ c = '\x0c'

/-- Go `strings.TrimSpace` on the ASCII model. -/
def trimSpaceGo (s : List Char) : List Char :=
  ((s.dropWhile isSpaceGo).reverse.dropWhile isSpaceGo).reverse

/-- Go `strings.ToLower` on the ASCII model. -/
def toLowerGo (s : List Char) : List Char :=
  s.map fun c => if 'A' ≤ c ∧ c ≤ 'Z' then Char.ofNat (c.toNat + 32) else c

/-- Numeric value of a digit string. -/
def digitsVal (s : List Char) : Nat :=
  s.foldl (fun acc c => 10 * acc + (c.toNat - 48)) 0

/-- All characters are decimal digits. -/
def allDigits (s : List Char) : Bool :=
  s.all fun c => '0' ≤ c ∧ c ≤ '9'

/-- Go `strconv.Atoi` as used by `SLevel.Level`: the caller discards the
error, so any syntactically invalid input contributes `0`.  (64-bit range
overflow is not modelled; the offsets in scope are small.) -/
def atoiGo : List Char → Int
  | [] => 0
  | '+' :: rest => if rest ≠ [] ∧ allDigits rest then (digitsVal rest : Int) else 0
  | '-' :: rest => if rest ≠ [] ∧ allDigits rest then -(digitsVal rest : Int) else 0
  | s => if allDigits s then (digitsVal s : Int) else 0

/-- `strings.SplitN(s, "+", 2)`: the part before the first `+` and, when a
`+` exists, the part after it. -/
def splitPlus (s : List Char) : List Char × Option (List Char) :=
  match idxOf '+' s with
  | none => (s, none)
  | some i => (s.take i, some (s.drop (i + 1)))

/-- The level registry, Go's `levelSet` map.  The association list keeps
the most recent registration first, matching map overwrite semantics. -/
abbrev Registry := List (List Char × Int)

/-- First-match lookup in the registry (Go map indexing). -/
def lookupLevel : Registry → List Char → Option Int
  | [], _ => none
  | (k, v) :: rest, n => if k = n then some v else lookupLevel rest n

/-- The four canonical anchors the registry is initialised with:
`slog.LevelDebug = -4`, `slog.LevelInfo = 0`, `slog.LevelWarn = 4`,
`slog.LevelError = 8`. -/
def initialLevelSet : Registry :=
  [(toL "debug", -4), (toL "info", 0), (toL "warn", 4), (toL "error", 8)]

/-- `RegisterLevel`: a no-op for the empty name, otherwise insert or
overwrite. -/
def RegisterLevel (reg : Registry) (ls : List Char) (ln : Int) : Registry :=
  if ls = [] then reg else (ls, ln) :: reg

/-- `ParseLevel`: registry lookup.  A missing name yields the Go map's
zero value `0` (the source comments that this is equivalent to returning
`slog.LevelInfo`); the lookup itself can never fail. -/
def ParseLevel (reg : Registry) (ls : List Char) : Int :=
  (lookupLevel reg ls).getD 0

/-- `SLevel.Level`: split on the first `+`, trim and lowercase the name,
resolve it through `ParseLevel`, and add the offset (an unparseable offset
contributes `0` because the `strconv.Atoi` error is discarded). -/
def SLevelLevel (reg : Registry) (l : List Char) : Int :=
  let parts := splitPlus l
  let kind := toLowerGo (trimSpaceGo parts.1)
  let level := ParseLevel reg kind
  match parts.2 with
  | none => level
  | some off => level + atoiGo (trimSpaceGo off)

/-- `SLevel.getColorPrefix`: five-way palette chosen by the lowercased
name before the first `+`. -/
def getColorPrefixL (l : List Char) : List Char :=
  let lv := toLowerGo (splitPlus l).1
  if lv = toL "debug" then toL "\x1b[37m"
  else if lv = toL "info" then toL "\x1b[36m"
  else if lv = toL "warn" then toL "\x1b[33m"
  else if lv = toL "error" then toL "\x1b[31m"
  else toL "\x1b[32m"

/-- `SLevel.getColorSuffix`: the ANSI reset code. -/
def colorSuffixL : List Char := toL "\x1b[0m"

/-- The character set of `needsQuoting`: letters, digits and
`- . _ / @ ^ +`. -/
def isUnreserved (c : Char) : Bool :=
  ('a' ≤ c ∧ c ≤ 'z') ∨ ('A' ≤ c ∧ c ≤ 'Z') ∨ ('0' ≤ c ∧ c ≤ '9') ∨
    c = '-' ∨ c = '.' ∨ c = '_' ∨ c = '/' ∨ c = '@' ∨ c = '^' ∨ c = '+'

/-- `needsQuoting`: true for the empty string and for any string holding a
character outside the unreserved set. -/
def needsQuoting (s : List Char) : Bool :=
  s.isEmpty || s.any fun c => !(isUnreserved c)

/-- Lower-case hexadecimal digit. -/
def hexDigit (n : Nat) : Char :=
  Char.ofNat (if n < 10 then 48 + n else 87 + n)

/-- Escape of one character inside a quoted value.  Modelled from the Go
standard library `strconv.Quote` for the ASCII range (printables kept,
the standard short escapes, `\xHH` for other control bytes); the claims
never depend on the escape table itself, only on when quoting happens. -/
def quoteCharGo (c : Char) : List Char :=
  if c = '"' then ['\\', '"']
  else if c = '\\' then ['\\', '\\']
  else if c = '\n' then ['\\', 'n']
  else if c = '\t' then ['\\', 't']
  else if c = '\r' then ['\\', 'r']
  else if c.toNat < 32 then ['\\', 'x', hexDigit (c.toNat / 16), hexDigit (c.toNat % 16)]
  else [c]

/-- Go `strconv.Quote`: the reversible double-quoted escaping form. -/
def quoteGo (s : List Char) : List Char :=
  '"' :: (s.map quoteCharGo).flatten ++ ['"']

/-- Decimal rendering of an integer (Go `%d`). -/
def intStr (i : Int) : List Char := (toString i).toList

/-- An attribute value.  `prim` covers every scalar slog kind (string,
int64, uint64, bool, float64, duration, non-source any), abstracted by the
rendering its Go `Value.String()` produces; `vtime` is a `KindTime` value
carrying its RFC-3339 rendering and its native `String()` rendering;
`vsource` is a `KindAny` value holding a `*slog.Source`; `group` is a
`KindGroup` value holding its ordered member attributes. -/
inductive Value : Type where
  | prim : List Char → Value
  | vtime : List Char → List Char → Value
  | vsource : List Char → Int → Value
  | group : List (List Char × Value) → Value

/-- A non-group value, the shape a rewrite hook may return.  (The hook is
only invoked on non-group attributes; a Go hook could in principle hand
back a new group, which the embedding does not model because no claim
exercises it.) -/
inductive SVal : Type where
  | prim : List Char → SVal
  | vtime : List Char → List Char → SVal
  | vsource : List Char → Int → SVal

/-- Inclusion of hook-result values into general values. -/
def SVal.toVal : SVal → Value
  | .prim s => .prim s
  | .vtime a b => .vtime a b
  | .vsource f l => .vsource f l

/-- Forgetful map from values to hook-result values (groups, which a hook
never receives, go to an empty scalar). -/
def toSVal : Value → SVal
  | .prim s => .prim s
  | .vtime a b => .vtime a b
  | .vsource f l => .vsource f l
  | .group _ => .prim []

/-- Go `Value.String()` for the modelled kinds.  The `group` branch is
unreachable from the flattener (groups are handled before any rendering)
and is given the empty rendering. -/
def valueString : Value → List Char
  | .prim s => s
  | .vtime _ s => s
  | .vsource f l => f ++ ':' :: intStr l
  | .group _ => []

/-- The handler configuration consulted by `addAttrs` and `Handle`:
`HandlerOptions.ReplaceAttr`, `HandlerOptions.AddSource`, the key-path
separator `sep` (`"."` at construction) and the `disableColor` flag. -/
structure HandlerCfg where
  replaceAttr : Option (List (List Char) → List Char × Value → List Char × SVal)
  addSource : Bool
  sep : List Char
  disableColor : Bool

/-- `slog.LevelKey`. -/
def levelKeyL : List Char := toL "level"

/-- `slog.TimeKey`. -/
def timeKeyL : List Char := toL "time"

/-- `slog.MessageKey`. -/
def msgKeyL : List Char := toL "msg"

/-- `slog.SourceKey`. -/
def sourceKeyL : List Char := toL "source"

/-- The rewrite-hook step of `addAttrs`: `a = raFn(groups, a)` when a hook
is configured, identity otherwise.  (It is only applied to non-group
attributes; `Value.Resolve` around it is the identity here.) -/
def applyHook (cfg : HandlerCfg) (groups : List (List Char)) (a : List Char × Value) :
    List Char × Value :=
  match cfg.replaceAttr with
  | none => a
  | some f => let r := f groups a; (r.1, r.2.toVal)

/-- Emission of one non-group attribute that survived the empty-key check:
the `*slog.Source` special case followed by the key switch of
`logHandler.addAttrs` (level, time, message, and the default
path-qualified `key=value` form with `needsQuoting`/`strconv.Quote`). -/
def emitLeaf (cfg : HandlerCfg) (groups : List (List Char)) (k : List Char) (v : Value) :
    List Char :=
  let v1 := match v with
            | Value.vsource f l => Value.prim (f ++ ':' :: intStr l)
            | w => w
  if k = levelKeyL then
    let ls := valueString v1
    if cfg.disableColor then ls else getColorPrefixL ls ++ ls ++ colorSuffixL
  else if k = timeKeyL then
    '[' :: ((match v1 with | Value.vtime rfc _ => rfc | w => valueString w) ++ [']'])
  else if k = msgKeyL then
    ' ' :: valueString v1
  else
    let pre := joinDot groups
    let str0 := valueString v1
    let str := if needsQuoting str0 then quoteGo str0 else str0
    ' ' :: ((if pre = [] then [] else pre ++ cfg.sep) ++ k ++ '=' :: str)

/-- `logHandler.addAttrs`: per attribute, apply the rewrite hook to
non-group attributes, elide every attribute whose (possibly rewritten)
key is empty, recurse into non-empty groups with the key pushed onto the
group stack, and emit everything else through the key switch.  The
buffer-writing original is modelled by returning the emitted bytes. -/
def addAttrs (cfg : HandlerCfg) (groups : List (List Char)) :
    List (List Char × Value) → List Char
  | [] => []
  | (k, v) :: rest =>
    (match v with
     | Value.group [] => []
     | Value.group (g :: gs) =>
       if k = [] then [] else addAttrs cfg (groups ++ [k]) (g :: gs)
     | w =>
       let a1 := applyHook cfg groups (k, w)
       if a1.1 = [] then [] else emitLeaf cfg groups a1.1 a1.2)
    ++ addAttrs cfg groups rest

/-- The key an attribute carries when `addAttrs` reaches its empty-key
elision check: the original key for groups (the hook is skipped), the
hook-rewritten key for everything else. -/
def hookKey (cfg : HandlerCfg) (groups : List (List Char)) (k : List Char) (v : Value) :
    List Char :=
  match v with
  | Value.group _ => k
  | w => (applyHook cfg groups (k, w)).1

/-- Inner loop of `convertToColorKey`: scan a quoted value for the
closing `"` + space sequence, treating a quote preceded by a backslash as
escaped.  Fuelled; the fuel-exhausted result coincides with the
"no closing sequence found, copy the remainder" fallback, and the wrapper
passes enough fuel for the loop (which consumes at least two bytes per
iteration) to always terminate on its own. -/
def scanQ : Nat → List Char → List Char × Option (List Char)
  | 0, v => (v, none)
  | f + 1, v =>
    match findSub2 '"' ' ' v with
    | none => (v, none)
    | some i =>
      if 0 < i ∧ v[i - 1]? ≠ some '\\' then
        (v.take i ++ ['"', ' '], some (v.drop (i + 2)))
      else
        let (w, r) := scanQ f (v.drop (i + 2))
        (v.take i ++ ['"', ' '] ++ w, r)

/-- The quoted-value scan with adequate fuel. -/
def scanQuoted (v : List Char) : List Char × Option (List Char) :=
  scanQ (v.length + 1) v

/-- Outer loop of `convertToColorKey`: find the next `=`, wrap the bytes
before it in the color pair, then copy the value verbatim — up to the
unescaped `" ` closing sequence when the value starts with a quote
(`bytes.IndexByte(val, quoteChar) == 0` in the source), up to the next
space otherwise.  Fuelled like `scanQ`; each iteration consumes at least
the `=` byte, so `length + 1` fuel always suffices. -/
def convGo (colorPre colorSuf : List Char) : Nat → List Char → List Char
  | 0, b => b
  | f + 1, b =>
    match idxOf '=' b with
    | none => b
    | some i =>
      colorPre ++ b.take i ++ colorSuf ++ '=' ::
        (let val := b.drop (i + 1)
         if idxOf '"' val = some 0 then
           '"' :: (match scanQuoted (val.drop 1) with
                   | (w, none) => w
                   | (w, some b') => w ++ convGo colorPre colorSuf f b')
         else
           match idxOf ' ' val with
           | none => val
           | some j => val.take j ++ ' ' :: convGo colorPre colorSuf f (val.drop (j + 1)))

/-- `convertToColorKey(b, colorPrefix, colorSuffix)` from the source. -/
def convertToColorKey (b colorPre colorSuf : List Char) : List Char :=
  convGo colorPre colorSuf (b.length + 1) b

/-- The key/chunk decomposition `convertToColorKey` induces on its input:
the same scan as `convGo`, but recording each key token and the verbatim
chunk that follows it instead of emitting wrapped bytes. -/
def parseGo : Nat → List Char → List (List Char × List Char) × List Char
  | 0, b => ([], b)
  | f + 1, b =>
    match idxOf '=' b with
    | none => ([], b)
    | some i =>
      let val := b.drop (i + 1)
      if idxOf '"' val = some 0 then
        match scanQuoted (val.drop 1) with
        | (w, none) => ([(b.take i, '=' :: '"' :: w)], [])
        | (w, some b') =>
          let (segs, tail) := parseGo f b'
          ((b.take i, '=' :: '"' :: w) :: segs, tail)
      else
        match idxOf ' ' val with
        | none => ([(b.take i, '=' :: val)], [])
        | some j =>
          let (segs, tail) := parseGo f (val.drop (j + 1))
          ((b.take i, '=' :: (val.take j ++ [' '])) :: segs, tail)

/-- The decomposition with the same fuel the wrapper uses. -/
def colorParse (b : List Char) : List (List Char × List Char) × List Char :=
  parseGo (b.length + 1) b

/-- Reassemble a key/chunk decomposition, wrapping every key in the given
color pair.  With the empty pair this is exactly "strip the inserted
prefix and suffix bytes". -/
def colorRender (colorPre colorSuf : List Char)
    (d : List (List Char × List Char) × List Char) : List Char :=
  (d.1.map fun kc => colorPre ++ kc.1 ++ colorSuf ++ kc.2).flatten ++ d.2

/-- Modelled from the Go standard library `slog.Level.String`: the nearest
anchor name below, plus a `%+d` offset when non-zero. -/
def slogLevelString (l : Int) : List Char :=
  let fmt := fun (base : String) (v : Int) =>
    toL base ++ (if v = 0 then [] else if 0 ≤ v then '+' :: intStr v else intStr v)
  if l < 0 then fmt "DEBUG" (l + 4)
  else if l < 4 then fmt "INFO" l
  else if l < 8 then fmt "WARN" (l - 4)
  else fmt "ERROR" (l - 8)

/-- Per-instance handler state: the sink and mutex (modelled by identity,
since clones share the pointers), the configuration, the accumulated
group stack and the accumulated flattened attribute buffer. -/
structure HState where
  w : Nat
  mu : Nat
  cfg : HandlerCfg
  groups : List (List Char)
  attrBuffer : List Char

/-- A `slog.Record` snapshot: the timestamp is modelled by its RFC-3339
and native renderings, the call-site program counter by the file and line
its frame resolves to. -/
structure Record where
  timeRfc : List Char
  timeStr : List Char
  level : Int
  message : List Char
  srcFile : List Char
  srcLine : Int
  attrs : List (List Char × Value)

/-- The three default attributes `Handle` builds: level, time, message. -/
def defAttrsOf (r : Record) : List (List Char × Value) :=
  [(levelKeyL, Value.prim (slogLevelString r.level)),
   (timeKeyL, Value.vtime r.timeRfc r.timeStr),
   (msgKeyL, Value.prim r.message)]

/-- The header bytes `Handle` assembles into `defBuf`: the flattened
default fields followed by one space. -/
def headerBytes (cfg : HandlerCfg) (r : Record) : List Char :=
  addAttrs cfg [] (defAttrsOf r) ++ [' ']

/-- The attribute bytes `Handle` assembles into `attrBuf`: the optional
source attribute, the accumulated `WithAttrs` buffer, the per-call record
attributes, colorized unless disabled. -/
def attrBytesOf (h : HState) (r : Record) : List Char :=
  let base :=
    (if h.cfg.addSource then
       addAttrs h.cfg [] [(sourceKeyL, Value.vsource r.srcFile r.srcLine)]
     else []) ++ h.attrBuffer ++ addAttrs h.cfg [] r.attrs
  if h.cfg.disableColor then base
  else convertToColorKey base (getColorPrefixL (slogLevelString r.level)) colorSuffixL

/-- `logHandler.Handle`: assemble header and attribute bytes, append the
trailing newline, and perform one locked write to the sink, returning the
sink's error.  The sink is a function from payload to optional error; the
first component records the sequence of writes issued. -/
def handle (h : HState) (r : Record) (sink : List Char → Option (List Char)) :
    List (List Char) × Option (List Char) :=
  let defBuf := addAttrs h.cfg [] (defAttrsOf r) ++ [' ']
  let attrBuf :=
    (if h.cfg.addSource then
       addAttrs h.cfg [] [(sourceKeyL, Value.vsource r.srcFile r.srcLine)]
     else []) ++ h.attrBuffer ++ addAttrs h.cfg [] r.attrs
  let attrBytes :=
    if h.cfg.disableColor then attrBuf
    else convertToColorKey attrBuf (getColorPrefixL (slogLevelString r.level)) colorSuffixL
  let payload := defBuf ++ attrBytes ++ ['\n']
  ([payload], sink payload)

/-- The heap of live handler instances; handler references are indices.
Forking operations extend the heap, so mutation of existing instances is
observable as a change under an existing index. -/
abbrev Heap := List HState

/-- `logHandler.WithAttrs`: clone the handler (sharing sink and mutex,
copying groups and buffer), flatten the new attributes with a copy of the
group stack onto the clone's buffer, and return the clone. -/
def withAttrsH (hp : Heap) (i : Nat) (attrs : List (List Char × Value)) : Heap × Nat :=
  match hp[i]? with
  | none => (hp, i)
  | some h =>
    let cp : HState := { h with attrBuffer := h.attrBuffer ++ addAttrs h.cfg h.groups attrs }
    (hp ++ [cp], hp.length)

/-- `logHandler.WithGroup`: clone the handler and append the group name
to the clone's group stack. -/
def withGroupH (hp : Heap) (i : Nat) (name : List Char) : Heap × Nat :=
  match hp[i]? with
  | none => (hp, i)
  | some h => (hp ++ [{ h with groups := h.groups ++ [name] }], hp.length)

/-- What it means for a fork result to leave the parent untouched while
sharing its sink and mutex: the parent's slot is unchanged, the returned
reference is new, and the child's `w` and `mu` equal the parent's. -/
def forkIsolated (hp : Heap) (i : Nat) (res : Heap × Nat) : Prop :=
  res.1[i]? = hp[i]? ∧ res.2 ≠ i ∧
  (res.1[res.2]?).map HState.w = (hp[i]?).map HState.w ∧
  (res.1[res.2]?).map HState.mu = (hp[i]?).map HState.mu

/-- One back end wrapped by the multi handler: an identity (so that the
invocation trace is observable) and its `Handle` behavior on a record. -/
structure Backend where
  id : Nat
  handleFn : Record → Option (List Char)

/-- The loop body of `multiHandler.Handle`: invoke every back end in
order, recording the trace of invocations and collecting the non-nil
errors in order. -/
def collectErrs : List Backend → Record → List Nat × List (List Char)
  | [], _ => ([], [])
  | h :: rest, r =>
    let e := h.handleFn r
    let (t, es) := collectErrs rest r
    (h.id :: t, match e with | some err => err :: es | none => es)

/-- Go `errors.Join`: `nil` when no errors were collected, otherwise an
aggregate wrapping exactly the collected errors. -/
def errorsJoin (errs : List (List Char)) : Option (List (List Char)) :=
  match errs with
  | [] => none
  | es => some es

/-- `multiHandler.Handle`: the invocation trace paired with the joined
error. -/
def multiHandle (hs : List Backend) (r : Record) : List Nat × Option (List (List Char)) :=
  ((collectErrs hs r).1, errorsJoin (collectErrs hs r).2)

/-- A hook-free, color-disabled configuration with the default `.`
separator (the `NewLogHandler` defaults with `disableColor = true`). -/
def plainCfg : HandlerCfg := ⟨none, false, toL ".", true⟩

/-- A configuration whose rewrite hook deletes the `level` attribute by
returning it with an empty key and passes everything else through. -/
def cfgElideLevel : HandlerCfg :=
  ⟨some (fun _ a => if a.1 = levelKeyL then ([], SVal.prim []) else (a.1, toSVal a.2)),
   false, toL ".", true⟩

/-- The colorization test vector of `Test_convertToColorKey`. -/
def c6input : List Char := toL "a=1 b=\"1 2\" c=1=2 d=\"1\\n\\\"2\""

/-- A concrete record for the closed fan-out and fork instances. -/
def rec0 : Record := ⟨toL "2023-08-18T00:00:00Z", toL "t0", 0, toL "m", toL "f.go", 1, []⟩

/-- A back end that succeeds. -/
def beOk1 : Backend := ⟨1, fun _ => none⟩

/-- A back end that fails with one error. -/
def beFail2 : Backend := ⟨2, fun _ => some (toL "boom")⟩

/-- A second succeeding back end. -/
def beOk3 : Backend := ⟨3, fun _ => none⟩

/-- A one-handler heap for the fork witness. -/
def hp0 : Heap := [⟨7, 9, plainCfg, [], []⟩]

/-- A found character splits its list at the reported index. -/
theorem idxOf_decomp {c : Char} : ∀ {l : List Char} {i : Nat}, idxOf c l = some i →
    l = l.take i ++ c :: l.drop (i + 1) := by
  intro l
  induction l with
  | nil => intro i h; simp [idxOf] at h
  | cons a rest ih =>
    intro i h
    rw [idxOf] at h
    by_cases ha : a = c
    · simp [ha] at h
      subst ha h
      simp
    · simp [ha] at h
      obtain ⟨i', hi', rfl⟩ := h
      simpa using ih hi'

/-- A found two-byte pattern splits its list at the reported index. -/
theorem findSub2_decomp {c1 c2 : Char} : ∀ {l : List Char} {i : Nat},
    findSub2 c1 c2 l = some i →
    l = l.take i ++ c1 :: c2 :: l.drop (i + 2) := by
  intro l
  induction l with
  | nil => intro i h; simp [findSub2] at h
  | cons a rest ih =>
    intro i h
    cases rest with
    | nil => simp [findSub2] at h
    | cons b rest' =>
      rw [findSub2] at h
      by_cases hab : a = c1 ∧ b = c2
      · simp [hab] at h
        subst h
        simp [hab.1, hab.2]
      · simp [hab] at h
        obtain ⟨i', hi', rfl⟩ := h
        simpa using ih hi'

/-- The quoted-value scan emits exactly the bytes it consumes: written
prefix plus unconsumed remainder always reassemble the input. -/
theorem scanQ_append : ∀ (f : Nat) (v : List Char),
    (scanQ f v).1 ++ ((scanQ f v).2.getD []) = v := by
  intro f
  induction f with
  | zero => intro v; simp [scanQ]
  | succ f ih =>
    intro v
    cases h : findSub2 '"' ' ' v with
    | none => simp [scanQ, h]
    | some i =>
      simp only [scanQ, h]
      split
      · simp only [Option.getD_some]
        simpa [List.append_assoc] using (findSub2_decomp h).symm
      · have h2 := ih (v.drop (i + 2))
        cases hq : scanQ f (v.drop (i + 2)) with
        | mk w r =>
          simp only [hq] at h2 ⊢
          simp only [List.append_assoc, h2]
          exact (findSub2_decomp h).symm

/-- `scanQ_append` at the wrapper. -/
theorem scanQuoted_append (v : List Char) :
    (scanQuoted v).1 ++ ((scanQuoted v).2.getD []) = v :=
  scanQ_append _ v

/-- The colorization loop is the rendering of the key/chunk decomposition
with the given color pair. -/
theorem convGo_eq_render (p s : List Char) : ∀ (f : Nat) (b : List Char),
    convGo p s f b = colorRender p s (parseGo f b) := by
  intro f
  induction f with
  | zero => intro b; simp [convGo, parseGo, colorRender]
  | succ f ih =>
    intro b
    rw [convGo, parseGo]
    cases h : idxOf '=' b with
    | none => simp [colorRender]
    | some i =>
      by_cases hq : idxOf '"' (b.drop (i + 1)) = some 0
      · simp only [hq, if_pos]
        cases hs : scanQuoted ((b.drop (i + 1)).drop 1) with
        | mk w r =>
          cases r with
          | none => simp [colorRender]
          | some b' => simp [colorRender, ih]
      · simp only [hq, if_neg, not_false_iff]
        cases hsp : idxOf ' ' (b.drop (i + 1)) with
        | none => simp [colorRender]
        | some j => simp [colorRender, ih]

/-- Rendering the decomposition with the empty color pair reproduces the
input exactly: the scan never alters, reorders or drops a byte. -/
theorem render_nil_parseGo : ∀ (f : Nat) (b : List Char),
    colorRender [] [] (parseGo f b) = b := by
  intro f
  induction f with
  | zero => intro b; simp [parseGo, colorRender]
  | succ f ih =>
    intro b
    rw [parseGo]
    cases h : idxOf '=' b with
    | none => simp [colorRender]
    | some i =>
      have hb : b = b.take i ++ '=' :: b.drop (i + 1) := idxOf_decomp h
      by_cases hq : idxOf '"' (b.drop (i + 1)) = some 0
      · have hv : b.drop (i + 1) = '"' :: (b.drop (i + 1)).drop 1 := by
          have := idxOf_decomp hq
          simpa using this
        simp only [hq, if_pos]
        cases hs : scanQuoted ((b.drop (i + 1)).drop 1) with
        | mk w r =>
          have happ := scanQuoted_append ((b.drop (i + 1)).drop 1)
          rw [hs] at happ
          cases r with
          | none =>
            simp only [Option.getD_none, List.append_nil] at happ
            simp [colorRender]
            conv_rhs => rw [hb, hv]
            simp [happ]
          | some b' =>
            simp only [Option.getD_some] at happ
            have hrec := ih b'
            simp [colorRender] at hrec
            simp [colorRender, hrec]
            conv_rhs => rw [hb, hv]
            simp [← happ]
      · simp only [hq, if_neg, not_false_iff]
        cases hsp : idxOf ' ' (b.drop (i + 1)) with
        | none =>
          simp [colorRender]
          conv_rhs => rw [hb]
        | some j =>
          have hval : b.drop (i + 1) =
              (b.drop (i + 1)).take j ++ ' ' :: (b.drop (i + 1)).drop (j + 1) :=
            idxOf_decomp hsp
          have hrec := ih ((b.drop (i + 1)).drop (j + 1))
          simp [colorRender] at hrec
          simp [colorRender, hrec]
          conv_rhs => rw [hb, hval]
          simp

/-- `convGo_eq_render` at the wrappers. -/
theorem convert_eq_render (b p s : List Char) :
    convertToColorKey b p s = colorRender p s (colorParse b) :=
  convGo_eq_render p s _ b

/-- `render_nil_parseGo` at the wrappers. -/
theorem render_nil (b : List Char) : colorRender [] [] (colorParse b) = b :=
  render_nil_parseGo _ b

/-- Appending the searched character behind a list that does not contain
it places the first hit exactly at the list's length. -/
theorem idxOf_append_none {c : Char} : ∀ {l : List Char}, idxOf c l = none →
    ∀ r : List Char, idxOf c (l ++ c :: r) = some l.length := by
  intro l
  induction l with
  | nil => intro _ r; simp [idxOf]
  | cons a rest ih =>
    intro h r
    rw [idxOf] at h
    by_cases ha : a = c
    · simp [ha] at h
    · simp [ha] at h
      simp [idxOf, ha, ih h r]

/-- Splitting at the first `+` of `name ++ "+" ++ off` recovers `name`
and `off` when `name` itself holds no `+`. -/
theorem splitPlus_append {name off : List Char} (h : idxOf '+' name = none) :
    splitPlus (name ++ '+' :: off) = (name, some off) := by
  rw [splitPlus, idxOf_append_none h off]
  have htake : (name ++ '+' :: off).take name.length = name := by
    simp
  have hdrop : (name ++ '+' :: off).drop (name.length + 1) = off := by
    have hsplit : name ++ '+' :: off = (name ++ ['+']) ++ off := by simp
    rw [hsplit, show name.length + 1 = (name ++ ['+']).length by simp]
    exact List.drop_left (name ++ ['+']) off
  show ((name ++ '+' :: off).take name.length,
    some ((name ++ '+' :: off).drop (name.length + 1))) = (name, some off)
  rw [htake, hdrop]

/-- Claim C4: level parsing splits on the first `+`, trims and lowercases
the name portion, resolves it through the registry, and adds the offset
parsed as a signed integer, an invalid offset counting as zero without
error; in particular `parse("info+2") = resolve("info") + 2`,
`parse("INFO") = resolve("info")` and
`parse("bogus+x") = resolve("bogus")`. -/
theorem C4_level_parse_arithmetic (reg : Registry) :
    SLevelLevel reg (toL "info+2") = ParseLevel reg (toL "info") + 2 ∧
    SLevelLevel reg (toL "INFO") = ParseLevel reg (toL "info") ∧
    SLevelLevel reg (toL "bogus+x") = ParseLevel reg (toL "bogus") ∧
    ∀ name off : List Char, idxOf '+' name = none →
      SLevelLevel reg (name ++ '+' :: off)
        = ParseLevel reg (toLowerGo (trimSpaceGo name)) + atoiGo (trimSpaceGo off) := by
  refine ⟨rfl, rfl, ?_, ?_⟩
  · show ParseLevel reg (toL "bogus") + atoiGo (trimSpaceGo (toL "x")) = _
    rw [show atoiGo (trimSpaceGo (toL "x")) = 0 from by decide, add_zero]
  · intro name off h
    unfold SLevelLevel
    rw [splitPlus_append h]

/-- Witness for C4 at the concrete input `"warn" ++ "+" ++ "3"`. -/
theorem C4_level_parse_arithmetic_witness :
    idxOf '+' (toL "warn") = none ∧
    SLevelLevel initialLevelSet (toL "warn" ++ '+' :: toL "3")
      = ParseLevel initialLevelSet (toLowerGo (trimSpaceGo (toL "warn")))
        + atoiGo (trimSpaceGo (toL "3")) :=
  ⟨by decide,
   (C4_level_parse_arithmetic initialLevelSet).2.2.2 (toL "warn") (toL "3") (by decide)⟩

/-- Counterexample for C5: the registry's zero value is `0`, the `info`
anchor, not the lowest built-in anchor `debug = -4`; an unknown name
therefore does not resolve to the debug anchor. -/
theorem C5_zero_value_not_debug_anchor :
    ParseLevel initialLevelSet (toL "bogus") = 0 ∧
    ParseLevel initialLevelSet (toL "debug") = -4 ∧
    ParseLevel initialLevelSet (toL "bogus") ≠ ParseLevel initialLevelSet (toL "debug") := by
  refine ⟨by decide, by decide, by decide⟩

/-- Claim C5 (amended): for every name not present in the registry,
`ParseLevel` returns the zero value `0` — which equals the `info` anchor,
not the lowest anchor — and never an error (the lookup is total). -/
theorem C5_unknown_level_resolves_to_zero (reg : Registry) (name : List Char)
    (h : lookupLevel reg name = none) :
    ParseLevel reg name = 0 ∧ ParseLevel initialLevelSet (toL "info") = 0 := by
  exact ⟨by simp [ParseLevel, h], by decide⟩

/-- Witness for the amended C5 at the unknown name `"bogus"`. -/
theorem C5_unknown_level_resolves_to_zero_witness :
    lookupLevel initialLevelSet (toL "bogus") = none ∧
    (ParseLevel initialLevelSet (toL "bogus") = 0 ∧
     ParseLevel initialLevelSet (toL "info") = 0) :=
  ⟨by decide, C5_unknown_level_resolves_to_zero initialLevelSet (toL "bogus") (by decide)⟩

/-- Claim C2: colorization is value-preserving — for every input and every
color pair, the output is the rendering of a key/chunk decomposition of
the input with the pair inserted around each key token only, and
re-rendering that decomposition with the empty pair (that is, stripping
exactly the inserted prefix and suffix bytes) yields the input back:
no value byte is altered, reordered or dropped. -/
theorem C2_colorize_value_preserving (b colorPre colorSuf : List Char) :
    convertToColorKey b colorPre colorSuf
      = colorRender colorPre colorSuf (colorParse b) ∧
    colorRender [] [] (colorParse b) = b :=
  ⟨convert_eq_render b colorPre colorSuf, render_nil b⟩

/-- Claim C6: on the test vector `a=1 b="1 2" c=1=2 d="1\n\"2"` the
colorization pass wraps exactly the keys `a`, `b`, `c`, `d` in the given
pair, leaving every value segment — the quoted space in `b`, the embedded
`=` in `c`, the escaped quote in `d` — byte-identical to the input. -/
theorem C6_colorize_quote_aware (colorPre colorSuf : List Char) :
    convertToColorKey c6input colorPre colorSuf =
      colorPre ++ toL "a" ++ colorSuf ++ toL "=1 " ++
      (colorPre ++ toL "b" ++ colorSuf ++ toL "=\"1 2\" ") ++
      (colorPre ++ toL "c" ++ colorSuf ++ toL "=1=2 ") ++
      (colorPre ++ toL "d" ++ colorSuf ++ toL "=\"1\\n\\\"2\"") := by
  rw [convert_eq_render,
    show colorParse c6input =
      ([(toL "a", toL "=1 "), (toL "b", toL "=\"1 2\" "),
        (toL "c", toL "=1=2 "), (toL "d", toL "=\"1\\n\\\"2\"")], []) from by decide]
  simp [colorRender]

/-- Claim C1 (code evaluation): a non-empty group attribute with an empty
key is dropped entirely by the flattener — the elision of every empty key
happens before the group switch, so the dead "inline a group with an
empty key" branch never runs and no segment for the member `a=1` is
emitted — while the same group under a non-empty key is recursed into
with the key pushed onto the path. -/
theorem C1_empty_key_group_dropped :
    addAttrs plainCfg [] [(([] : List Char), Value.group [(toL "a", Value.prim (toL "1"))])]
      = [] ∧
    addAttrs plainCfg [] [(toL "g", Value.group [(toL "a", Value.prim (toL "1"))])]
      = toL " g.a=1" := by
  constructor
  · simp [addAttrs]
  · simp [addAttrs, emitLeaf, applyHook, plainCfg, valueString, needsQuoting, joinDot,
      levelKeyL, timeKeyL, msgKeyL, isUnreserved, toL]

/-- Counterexample for C8: a rewrite hook that returns the `level`
attribute with an empty key deletes the top-level default level field —
its flattening emits no bytes, only the message survives — so the default
fields are not exempt from the empty-key elision rule. -/
theorem C8_default_field_elidable :
    addAttrs cfgElideLevel []
      [(levelKeyL, Value.prim (toL "INFO")), (msgKeyL, Value.prim (toL "hi"))]
      = toL " hi" := by
  simp [addAttrs, emitLeaf, applyHook, cfgElideLevel, toSVal, SVal.toVal, valueString,
    levelKeyL, timeKeyL, msgKeyL, toL]

/-- Claim C8 (amended): every attribute whose key — as returned by the
rewrite hook for non-group values, the original key for groups — is the
empty string is elided entirely: the flattener emits no bytes for it and
continues with its siblings.  This applies to the top-level default
fields too: they are only safe from elision because their keys are the
fixed non-empty strings `level`, `time`, `msg`, and a hook that empties
one of those keys deletes the field. -/
theorem C8_empty_key_elision (cfg : HandlerCfg) (groups : List (List Char))
    (k : List Char) (v : Value) (rest : List (List Char × Value))
    (h : hookKey cfg groups k v = []) :
    addAttrs cfg groups ((k, v) :: rest) = addAttrs cfg groups rest := by
  cases v with
  | group as =>
    simp only [hookKey] at h
    subst h
    cases as with
    | nil => simp [addAttrs]
    | cons g gs => simp [addAttrs]
  | prim s =>
    simp only [hookKey] at h
    simp [addAttrs, h]
  | vtime a b =>
    simp only [hookKey] at h
    simp [addAttrs, h]
  | vsource f l =>
    simp only [hookKey] at h
    simp [addAttrs, h]

/-- Witness for the amended C8 at a concrete empty-keyed attribute. -/
theorem C8_empty_key_elision_witness :
    hookKey plainCfg [] [] (Value.prim (toL "x")) = [] ∧
    addAttrs plainCfg [] [(([] : List Char), Value.prim (toL "x"))]
      = addAttrs plainCfg [] [] :=
  ⟨rfl, C8_empty_key_elision plainCfg [] [] (Value.prim (toL "x")) [] rfl⟩

/-- Claim C7: a flattened value is emitted double-quoted through the
reversible `strconv.Quote` escaping exactly when `needsQuoting` holds,
and `needsQuoting` holds exactly when the value is empty or contains a
character outside `[A-Za-z0-9\-._/@^+]`; in particular a value containing
a space is quoted and a non-empty value of unreserved characters is not. -/
theorem C7_quoting_boundary (s : List Char) (cfg : HandlerCfg)
    (groups : List (List Char)) (k : List Char)
    (hk : k ≠ [] ∧ k ≠ levelKeyL ∧ k ≠ timeKeyL ∧ k ≠ msgKeyL ∧ cfg.replaceAttr = none) :
    (needsQuoting s = true ↔ s = [] ∨ ∃ c ∈ s, isUnreserved c = false) ∧
    (' ' ∈ s → needsQuoting s = true) ∧
    ((∀ c ∈ s, isUnreserved c = true) → s ≠ [] → needsQuoting s = false) ∧
    addAttrs cfg groups [(k, Value.prim s)] =
      ' ' :: ((if joinDot groups = [] then [] else joinDot groups ++ cfg.sep) ++ k ++ '=' ::
        (if needsQuoting s then quoteGo s else s)) := by
  obtain ⟨h1, h2, h3, h4, h5⟩ := hk
  refine ⟨?_, ?_, ?_, ?_⟩
  · simp [needsQuoting, List.isEmpty_iff, List.any_eq_true]
  · intro hsp
    simp only [needsQuoting, List.any_eq_true, Bool.or_eq_true]
    right
    exact ⟨' ', hsp, by decide⟩
  · intro hall hne
    simp only [needsQuoting, Bool.or_eq_false_iff]
    constructor
    · simpa [List.isEmpty_iff] using hne
    · simp only [List.any_eq_false]
      intro c hc
      simp [hall c hc]
  · simp [addAttrs, applyHook, h5, emitLeaf, h1, h2, h3, h4, valueString]

/-- Witness for C7 at the key `x` and the space-containing value `a b`. -/
theorem C7_quoting_boundary_witness :
    (toL "x" ≠ [] ∧ toL "x" ≠ levelKeyL ∧ toL "x" ≠ timeKeyL ∧ toL "x" ≠ msgKeyL ∧
     plainCfg.replaceAttr = none) ∧
    ((needsQuoting (toL "a b") = true ↔
        toL "a b" = [] ∨ ∃ c ∈ toL "a b", isUnreserved c = false) ∧
     (' ' ∈ toL "a b" → needsQuoting (toL "a b") = true) ∧
     ((∀ c ∈ toL "a b", isUnreserved c = true) → toL "a b" ≠ [] →
        needsQuoting (toL "a b") = false) ∧
     addAttrs plainCfg [] [(toL "x", Value.prim (toL "a b"))] =
       ' ' :: ((if joinDot [] = [] then [] else joinDot [] ++ plainCfg.sep) ++
         toL "x" ++ '=' :: (if needsQuoting (toL "a b") then quoteGo (toL "a b")
           else toL "a b"))) :=
  ⟨⟨by decide, by decide, by decide, by decide, rfl⟩,
   C7_quoting_boundary (toL "a b") plainCfg [] (toL "x")
     ⟨by decide, by decide, by decide, by decide, rfl⟩⟩

/-- The fan-out loop visits every back end in order and collects exactly
the non-nil errors in order. -/
theorem collectErrs_spec (hs : List Backend) (r : Record) :
    (collectErrs hs r).1 = hs.map Backend.id ∧
    (collectErrs hs r).2 = hs.filterMap fun h => h.handleFn r := by
  induction hs with
  | nil => simp [collectErrs]
  | cons h rest ih =>
    obtain ⟨ih1, ih2⟩ := ih
    cases hb : h.handleFn r <;>
      simp [collectErrs, hb, ih1, ih2, List.filterMap_cons]

/-- Claim C3: `multiHandler.Handle` invokes every back end exactly once in
order regardless of earlier failures and returns the `errors.Join` of
exactly the non-nil errors (`none` when none failed); in particular, with
three back ends of which only the second fails, the first and third are
still invoked and the aggregate reports exactly that one failure. -/
theorem C3_multi_fanout :
    (∀ (hs : List Backend) (r : Record),
        (multiHandle hs r).1 = hs.map Backend.id ∧
        (multiHandle hs r).2 = errorsJoin (hs.filterMap fun h => h.handleFn r)) ∧
    multiHandle [beOk1, beFail2, beOk3] rec0 = ([1, 2, 3], some [toL "boom"]) := by
  constructor
  · intro hs r
    obtain ⟨h1, h2⟩ := collectErrs_spec hs r
    exact ⟨h1, by rw [multiHandle, h2]⟩
  · simp [multiHandle, collectErrs, errorsJoin, beOk1, beFail2, beOk3]

/-- Claim C9: every `Handle` call performs exactly one write to the sink,
whose payload is the header bytes followed by the attribute bytes
followed by a single trailing newline, and returns exactly the sink's
write error for that payload (`none` when the write succeeded) — the
sink's answer is surfaced once, unmodified, with no retry and no other
error source. -/
theorem C9_handle_single_write (h : HState) (r : Record)
    (sink : List Char → Option (List Char)) :
    (handle h r sink).1 = [headerBytes h.cfg r ++ attrBytesOf h r ++ ['\n']] ∧
    (handle h r sink).2 = sink (headerBytes h.cfg r ++ attrBytesOf h r ++ ['\n']) :=
  ⟨rfl, rfl⟩

/-- A fork that appends a clone sharing `w` and `mu` is isolated. -/
theorem forkIsolated_concat {hp : Heap} {i : Nat} (hlt : i < hp.length) (cp : HState)
    (hw : cp.w = hp[i].w) (hmu : cp.mu = hp[i].mu) :
    forkIsolated hp i (hp ++ [cp], hp.length) := by
  refine ⟨?_, ?_, ?_, ?_⟩
  · simp [List.getElem?_append, hlt]
  · omega
  · rw [List.getElem?_concat_length, List.getElem?_eq_getElem hlt]
    simp [hw]
  · rw [List.getElem?_concat_length, List.getElem?_eq_getElem hlt]
    simp [hmu]

/-- Claim C10: `WithAttrs` and `WithGroup` return a new handler and leave
the receiver's state — accumulated attribute buffer and group stack
included — unchanged, while the returned handler shares the parent's sink
and mutex. -/
theorem C10_fork_isolation (hp : Heap) (i : Nat) (attrs : List (List Char × Value))
    (name : List Char) (hlt : i < hp.length) :
    forkIsolated hp i (withAttrsH hp i attrs) ∧
    forkIsolated hp i (withGroupH hp i name) := by
  have hg : hp[i]? = some hp[i] := List.getElem?_eq_getElem hlt
  constructor
  · rw [withAttrsH, hg]
    exact forkIsolated_concat hlt _ rfl rfl
  · rw [withGroupH, hg]
    exact forkIsolated_concat hlt _ rfl rfl

/-- Witness for C10 on a concrete one-handler heap. -/
theorem C10_fork_isolation_witness :
    0 < hp0.length ∧
    (forkIsolated hp0 0 (withAttrsH hp0 0 []) ∧
     forkIsolated hp0 0 (withGroupH hp0 0 (toL "g"))) :=
  ⟨by decide, C10_fork_isolation hp0 0 [] (toL "g") (by decide)⟩
